import Mathlib

/-!
Verification of the context-assembly and safe-edit engine of the
chat/repository platform.  The TypeScript source is shallowly embedded:
strings are lists of characters (`Str`), the remote repository is a finite
map from paths to contents (with blob identifiers where writes need them),
and the asynchronous loaders are given both a sequential semantics and an
explicit event-loop interleaving semantics parameterised by a schedule.
-/

set_option maxRecDepth 10000

/-- Strings are modelled as lists of characters so that every operation of
the source (split, includes, replace, startsWith) can be given an
executable, kernel-reducible definition. -/
abbrev Str := List Char

/-- Whitespace test matching the character class of the source regexes. -/
def wsChar (c : Char) : Bool :=
  c = ' ' || c = '\t' || c = '\n' || c = '\r' || c = '\x0b' || c = '\x0c'

/-- Boolean prefix test on character lists (the semantics of
JavaScript `startsWith`). -/
def startsWithL : Str → Str → Bool
  | [], _ => true
  | _ :: _, [] => false
  | p :: ps, c :: cs => p = c && startsWithL ps cs

/-- Splits of a string into a nonempty all-whitespace prefix and the rest,
longest prefix first: the order in which a greedy backtracking regex engine
tries the alternatives of a whitespace-plus atom. -/
def wsSplits (l : Str) : List (Str × Str) :=
  match l with
  | [] => []
  | c :: cs =>
    if wsChar c then
      ((wsSplits cs).map (fun pr => (c :: pr.1, pr.2))) ++ [([c], cs)]
    else []

/-- Splits of a string into a (possibly empty) prefix free of newline
characters and the rest, longest prefix first: the alternatives of the
greedy dot-star atom of the import regex. -/
def midSplits (l : Str) : List (Str × Str) :=
  match l with
  | [] => [([], [])]
  | c :: cs =>
    if c = '\n' then [([], c :: cs)]
    else ((midSplits cs).map (fun pr => (c :: pr.1, pr.2))) ++ [([], c :: cs)]

/-- Maximal whitespace prefix of a string together with the remainder. -/
def takeWs : Str → Str × Str
  | [] => ([], [])
  | c :: cs =>
    if wsChar c then
      let pr := takeWs cs
      (c :: pr.1, pr.2)
    else ([], c :: cs)

/-- Maximal prefix of characters that are not quote characters, with the
remainder; the greedy capture group of both source regexes. -/
def takeNonQuote : Str → Str × Str
  | [] => ([], [])
  | c :: cs =>
    if c = '\x27' || c = '"' then ([], c :: cs)
    else
      let pr := takeNonQuote cs
      (c :: pr.1, pr.2)

/-- Quote character test for the character class of the source regexes. -/
def quoteChar (c : Char) : Bool := c = '\x27' || c = '"'

/-- Matches the tail of the import regex after an opening quote: a nonempty
run of non-quote characters followed by a closing quote.  Returns the
capture and the remainder after the match. -/
def matchQuoted (l : Str) : Option (Str × Str) :=
  match l with
  | [] => none
  | c :: cs =>
    if quoteChar c then
      let pr := takeNonQuote cs
      match pr.1, pr.2 with
      | [], _ => none
      | cap, q :: rest => if quoteChar q then some (cap, rest) else none
      | _, [] => none
    else none

/-- Matches the part of the import regex after the literal `from`: one or
more whitespace characters, then a quoted nonempty capture. -/
def matchFromTail (l : Str) : Option (Str × Str) :=
  let pr := takeWs l
  match pr.1 with
  | [] => none
  | _ => matchQuoted pr.2

/-- First successful value of a function over a list, in list order: the
backtracking order of the regex engine over candidate splits. -/
def firstSome {α β : Type} (f : α → Option β) : List α → Option β
  | [] => none
  | a :: rest =>
    match f a with
    | some b => some b
    | none => firstSome f rest

/-- Matches the body of the import regex after the literal `import`:
whitespace-plus, greedy dot-star, whitespace-plus, the literal `from`,
whitespace-plus and a quoted capture, with the backtracking priority of the
engine (longest whitespace first, then longest middle). -/
def matchImportBody (l : Str) : Option (Str × Str) :=
  firstSome
    (fun ws1 =>
      firstSome
        (fun mid =>
          let pr := takeWs mid.2
          match pr.1 with
          | [] => none
          | _ =>
            if startsWithL "from".data pr.2 then
              matchFromTail (pr.2.drop 4)
            else none)
        (midSplits ws1.2))
    (wsSplits l)

/-- Attempts an import-regex match starting exactly at the head of the
string; on success returns the captured module reference and the remainder
of the string after the whole match. -/
def tryImportHere (l : Str) : Option (Str × Str) :=
  if startsWithL "import".data l then matchImportBody (l.drop 6)
  else none

/-- Attempts a require-regex match starting exactly at the head of the
string: the literal `require`, optional whitespace, an opening parenthesis,
a quoted nonempty capture and a closing parenthesis. -/
def tryRequireHere (l : Str) : Option (Str × Str) :=
  if startsWithL "require".data l then
    let pr := takeWs (l.drop 7)
    match pr.2 with
    | '(' :: rest =>
      match matchQuoted rest with
      | some (cap, ')' :: rest2) => some (cap, rest2)
      | _ => none
    | _ => none
  else none

/-- Runs a single-position matcher over the whole string in the manner of a
global `exec` loop: successive leftmost non-overlapping matches, each search
resuming right after the previous match. -/
def scanAll (m : Str → Option (Str × Str)) : Nat → Str → List Str
  | 0, _ => []
  | _, [] => []
  | fuel + 1, l =>
    match m l with
    | some (cap, rest) => cap :: scanAll m fuel rest
    | none => scanAll m fuel l.tail

/-- All captures of the import regex over the content, in match order. -/
def importCaptures (content : Str) : List Str :=
  scanAll tryImportHere (content.length + 1) content

/-- All captures of the require regex over the content, in match order. -/
def requireCaptures (content : Str) : List Str :=
  scanAll tryRequireHere (content.length + 1) content

/-- Splits a string on a separator character (the semantics of JavaScript
`split` with a one-character separator string). -/
def splitOnChar (sep : Char) : Str → List Str
  | [] => [[]]
  | c :: cs =>
    if c = sep then [] :: splitOnChar sep cs
    else
      match splitOnChar sep cs with
      | [] => [[c]]
      | h :: t => (c :: h) :: t

/-- Joins a list of segments with slash separators (JavaScript
`Array.join` with separator `/`). -/
def joinSlash : List Str → Str
  | [] => []
  | [s] => s
  | s :: rest => s ++ '/' :: joinSlash rest

/-- Resolution of an import specifier against the directory of the owning
file, embedded from `resolveImportPath` in `src/lib/github.ts`: relative
specifiers are resolved with path algebra (`..` pops, `.` and empty
segments are dropped); all other specifiers are returned unchanged. -/
def resolveImportPath (importPath currentPath : Str) : Str :=
  if startsWithL "./".data importPath || startsWithL "../".data importPath then
    let currentDir := joinSlash ((splitOnChar '/' currentPath).dropLast)
    let parts := splitOnChar '/' currentDir ++ splitOnChar '/' importPath
    let resolved := parts.foldl
      (fun acc part =>
        if part = "..".data then acc.dropLast
        else if part = ".".data || part = [] then acc
        else acc ++ [part]) []
    joinSlash resolved
  else importPath

/-- Import extraction embedded from `parseImports` in `src/lib/github.ts`:
captures of the import regex followed by captures of the require regex,
each resolved against the current path, and then filtered by whether the
resolved string starts with a relative or absolute path marker. -/
def parseImports (content currentPath : Str) : List Str :=
  ((importCaptures content ++ requireCaptures content).map
      (fun i => resolveImportPath i currentPath)).filter
    (fun i =>
      startsWithL "./".data i || startsWithL "../".data i ||
        startsWithL "/".data i)

/-- Abstract remote repository used by the context loader: a finite map
from paths to file contents (`none` models a fetch that fails, i.e. a path
that is absent or not a file). -/
abbrev RepoMap := List (Str × Str)

/-- Lookup of a path in the abstract repository. -/
def repoFind (repo : RepoMap) (p : Str) : Option Str :=
  match repo.find? (fun e => e.1 = p) with
  | some e => some e.2
  | none => none

/-- Candidate spellings tried for an unresolved path, embedded from the
`possiblePaths` list of `getFilesWithImports`: the literal path, four
source-extension suffixes and three directory-index spellings, in that
order. -/
def possiblePaths (path : Str) : List Str :=
  [path, path ++ ".ts".data, path ++ ".tsx".data, path ++ ".js".data,
   path ++ ".jsx".data, path ++ "/index.ts".data, path ++ "/index.tsx".data,
   path ++ "/index.js".data]

/-- State threaded through the loader: the visited-path set and the list of
loaded files in discovery order. -/
structure LoadState where
  loaded : List Str
  files : List (Str × Str)
deriving DecidableEq


/-- Sequentialised `Promise.all` over the imports of a freshly loaded file:
folds the recursive loader (passed as the continuation `rec`) over the
list of imports in submission order. -/
def loadListGo (rec : Str → Nat → LoadState → LoadState) :
    List Str → Nat → LoadState → LoadState
  | [], _, st => st
  | imp :: rest, depth, st => loadListGo rec rest depth (rec imp depth st)

/-- Iteration over the candidate spellings of one unresolved path, embedded
from the candidate loop of `loadFile` in `getFilesWithImports`: a candidate
already in the visited set ends the whole call; a failed fetch moves on to
the next candidate; a successful fetch records the file and, when below the
depth bound, expands its imports through the continuation `rec`. -/
def tryCandsGo (repo : RepoMap) (maxDepth : Nat)
    (rec : Str → Nat → LoadState → LoadState) :
    List Str → Nat → LoadState → LoadState
  | [], _, st => st
  | p :: rest, depth, st =>
    if p ∈ st.loaded then st
    else
      match repoFind repo p with
      | none => tryCandsGo repo maxDepth rec rest depth st
      | some content =>
        let st1 : LoadState :=
          ⟨p :: st.loaded, st.files ++ [(p, content)]⟩
        if depth < maxDepth then
          loadListGo rec (parseImports content p) (depth + 1) st1
        else st1

/-- Sequential semantics of `loadFile` from `getFilesWithImports` in
`src/lib/github.ts`: each awaited fetch completes before anything else
runs, so the concurrent `Promise.all` fan-outs degenerate to left-to-right
iteration.  The fuel argument only serves termination; `getFilesWithImports`
supplies enough of it for every reachable call. -/
def loadFile (repo : RepoMap) (maxDepth : Nat) (fuel : Nat) :
    Str → Nat → LoadState → LoadState :=
  Nat.rec (motive := fun _ => Str → Nat → LoadState → LoadState)
    (fun _ _ st => st)
    (fun _ rec path depth st =>
      tryCandsGo repo maxDepth rec (possiblePaths path) depth st)
    fuel

/-- Sequential semantics of `getFilesWithImports`: every entry path is
loaded starting at depth `0`; the result is the file list in discovery
order.  The fuel `maxDepth + 1` suffices because recursive calls happen
only below the depth bound. -/
def getFilesWithImports (repo : RepoMap) (entryPaths : List Str)
    (maxDepth : Nat) : List (Str × Str) :=
  (entryPaths.foldl
    (fun st p => loadFile repo maxDepth (maxDepth + 1) p 0 st)
    ⟨[], []⟩).files

/-- One asynchronous activation of the loader in the event-loop model:
either about to test its next candidate spelling, or blocked on an
in-flight fetch of a candidate.  The visited-set test and the start of the
fetch are one atomic step (the source has no await between them); the
completion of the fetch is a separate step, so distinct activations can
hold in-flight fetches of the same path simultaneously. -/
inductive LTask
  | ready (cands : List Str) (depth : Nat)
  | inflight (p : Str) (rest : List Str) (depth : Nat)
deriving DecidableEq

/-- Global state of the event-loop model: the shared visited set and file
list of `getFilesWithImports` plus the multiset of live activations. -/
structure MState where
  loaded : List Str
  files : List (Str × Str)
  tasks : List LTask
deriving DecidableEq

/-- One scheduling step of the event-loop model: advances the activation at
index `i`.  A ready activation with an unvisited candidate starts its fetch;
a completing fetch either moves to the next candidate (fetch failed) or
records the file, marks it visited and spawns child activations for the
file's imports when below the depth bound — the synchronous block that the
source runs between two awaits. -/
def loaderStep (repo : RepoMap) (maxDepth : Nat) (st : MState) (i : Nat) :
    MState :=
  match st.tasks.get? i with
  | none => st
  | some (.ready [] _) => { st with tasks := st.tasks.eraseIdx i }
  | some (.ready (p :: rest) depth) =>
    if p ∈ st.loaded then { st with tasks := st.tasks.eraseIdx i }
    else { st with tasks := st.tasks.set i (.inflight p rest depth) }
  | some (.inflight p rest depth) =>
    match repoFind repo p with
    | none => { st with tasks := st.tasks.set i (.ready rest depth) }
    | some content =>
      let children :=
        if depth < maxDepth then
          (parseImports content p).map
            (fun imp => LTask.ready (possiblePaths imp) (depth + 1))
        else []
      { loaded := if p ∈ st.loaded then st.loaded else p :: st.loaded,
        files := st.files ++ [(p, content)],
        tasks := st.tasks.eraseIdx i ++ children }

/-- Runs the event-loop model under an explicit schedule of activation
indices. -/
def loaderRun (repo : RepoMap) (maxDepth : Nat) (sched : List Nat)
    (st : MState) : MState :=
  sched.foldl (loaderStep repo maxDepth) st

/-- Initial event-loop state for a set of entry paths: one activation per
seed, at depth `0`. -/
def loaderInit (entryPaths : List Str) : MState :=
  ⟨[], [], entryPaths.map (fun p => LTask.ready (possiblePaths p) 0)⟩

/-- Repository used to exhibit the visited-set race: two seeds whose files
each import the same third file. -/
def raceRepo : RepoMap :=
  [("/A".data, "import x from '/C'".data),
   ("/B".data, "import y from '/C'".data),
   ("/C".data, "c".data)]

/-- Boolean substring test: the semantics of JavaScript
`String.prototype.includes` (the empty string is contained in every
string). -/
def jsIncludes (hay needle : Str) : Bool :=
  match hay with
  | [] => startsWithL needle []
  | _ :: t => startsWithL needle hay || jsIncludes t needle

/-- First occurrence of a nonempty needle: splits the haystack into the
part before the first occurrence and the part after it. -/
def splitFirst (hay needle : Str) : Option (Str × Str) :=
  match hay with
  | [] => if startsWithL needle [] then some ([], []) else none
  | c :: t =>
    if startsWithL needle hay then some ([], hay.drop needle.length)
    else
      match splitFirst t needle with
      | some (pre, post) => some (c :: pre, post)
      | none => none

/-- Fueled splitting loop of JavaScript `split` for a nonempty separator:
successive non-overlapping occurrences scanned left to right. -/
def jsSplitGo (sep : Str) : Nat → Str → List Str
  | 0, s => [s]
  | fuel + 1, s =>
    match splitFirst s sep with
    | none => [s]
    | some (pre, post) => pre :: jsSplitGo sep fuel post

/-- Semantics of JavaScript `String.prototype.split` with a string
separator: the empty separator splits into the list of single characters
(so the empty string splits into the empty array), a nonempty separator
splits at successive non-overlapping occurrences. -/
def jsSplit (s sep : Str) : List Str :=
  if sep = [] then s.map (fun c => [c])
  else jsSplitGo sep (s.length + 1) s

/-- Semantics of JavaScript `String.prototype.replace` with string pattern
and literal replacement: substitutes the first occurrence of the pattern
(for the empty pattern, the replacement is prepended). -/
def jsReplaceFirst (s pat repl : Str) : Str :=
  match splitFirst s pat with
  | some (pre, post) => pre ++ repl ++ post
  | none => s

/-- Direct non-overlapping occurrence counter, used as the
specification-side reading of the spec's literal, non-overlapping
substring counting for a nonempty needle. -/
def countOccGo (needle : Str) : Nat → Str → Nat
  | 0, _ => 0
  | fuel + 1, s =>
    match s with
    | [] => if startsWithL needle [] then 1 else 0
    | _ :: t =>
      if startsWithL needle s then 1 + countOccGo needle fuel (s.drop needle.length)
      else countOccGo needle fuel t

/-- Number of non-overlapping occurrences of a nonempty needle, scanned
left to right. -/
def countOcc (s needle : Str) : Nat := countOccGo needle (s.length + 1) s

/-- Substring relation used as the specification-side reading of the spec's
`oldText` does (not) occur in the content. -/
def SubstrOf (needle hay : Str) : Prop := ∃ s t, hay = s ++ needle ++ t

instance (needle hay : Str) : Decidable (SubstrOf needle hay) :=
  decidable_of_iff (jsIncludes hay needle = true) (by
    have hstart : ∀ p v : Str, startsWithL p (p ++ v) = true := by
      intro p
      induction p with
      | nil => intro v; rfl
      | cons a as iha => intro v; simp [startsWithL, iha]
    have hnil : ∀ h : Str, jsIncludes h [] = true := by
      intro h; cases h <;> simp [jsIncludes, startsWithL]
    have hpre : ∀ p l : Str, startsWithL p l = true → l = p ++ l.drop p.length := by
      intro p
      induction p with
      | nil => intro l _; simp
      | cons a as iha =>
        intro l h
        cases l with
        | nil => simp [startsWithL] at h
        | cons b bs =>
          simp only [startsWithL, Bool.and_eq_true, decide_eq_true_eq] at h
          obtain ⟨rfl, h2⟩ := h
          simp only [List.length_cons, List.drop_succ_cons, List.cons_append,
            List.cons.injEq, true_and]
          exact iha bs h2
    constructor
    · intro h
      induction hay with
      | nil =>
        cases needle with
        | nil => exact ⟨[], [], rfl⟩
        | cons c cs => simp [jsIncludes, startsWithL] at h
      | cons c t ih =>
        simp only [jsIncludes, Bool.or_eq_true] at h
        rcases h with h | h
        · exact ⟨[], (c :: t).drop needle.length, by simpa using hpre needle (c :: t) h⟩
        · obtain ⟨s, u, hsu⟩ := ih h
          exact ⟨c :: s, u, by simp [hsu]⟩
    · rintro ⟨s, u, rfl⟩
      induction s with
      | nil =>
        cases needle with
        | nil => simpa using hnil u
        | cons n ns =>
          simp only [jsIncludes, Bool.or_eq_true]
          exact Or.inl (by simpa using hstart (n :: ns) u)
      | cons c s ih =>
        simp only [List.cons_append, jsIncludes, Bool.or_eq_true]
        exact Or.inr (by simpa using ih))

/-- A file as fetched from the remote repository: its content and the
content-addressed revision identifier (blob SHA) of its current state. -/
structure RepoFileRec where
  content : Str
  sha : Nat
deriving DecidableEq

/-- Writable remote repository state: the stored files and a counter
supplying fresh revision identifiers for writes. -/
structure RepoSt where
  entries : List (Str × RepoFileRec)
  nextSha : Nat
deriving DecidableEq

/-- Fetching a file, embedded from `getFileContent`: `none` models the
thrown error for an absent path (or a path that is not a file). -/
def getFileContent (st : RepoSt) (path : Str) : Option RepoFileRec :=
  match st.entries.find? (fun e => e.1 = path) with
  | some e => some e.2
  | none => none

/-- Replaces the record stored under a path. -/
def setEntry (entries : List (Str × RepoFileRec)) (path : Str)
    (rec : RepoFileRec) : List (Str × RepoFileRec) :=
  entries.map (fun e => if e.1 = path then (e.1, rec) else e)

/-- Writing a file, embedded from `updateFile` (the remote
create-or-update operation): creating a new file requires no expected
revision; updating an existing file succeeds only when the supplied
expected revision matches the stored one.  `none` models the thrown remote
error (revision mismatch, update without revision, or revision supplied
for an absent file). -/
def updateFile (st : RepoSt) (path content : Str) (shaArg : Option Nat) :
    Option RepoSt :=
  match getFileContent st path with
  | none =>
    match shaArg with
    | none =>
      some ⟨st.entries ++ [(path, ⟨content, st.nextSha⟩)], st.nextSha + 1⟩
    | some _ => none
  | some rec =>
    match shaArg with
    | some s =>
      if s = rec.sha then
        some ⟨setEntry st.entries path ⟨content, st.nextSha⟩, st.nextSha + 1⟩
      else none
    | none => none

/-- Structured rendering of the error strings produced by the tool layer. -/
inductive ErrKind
  | unknownTool (name : Str)
  | strNotFound (path : Str)
  | strAmbiguous (occurrences : Int) (path : Str)
  | fetchFailed (path : Str)
  | writeFailed (path : Str)
  | searchFailed
deriving DecidableEq

/-- Outcome of one tool execution, mirroring the
`{ success, result?, error? }` records of the source. -/
structure ToolResult where
  success : Bool
  res : Option Str
  error : Option ErrKind
deriving DecidableEq

/-- Safe edit application embedded from `applyStrReplace` in
`src/lib/github.ts`: fetch the file fresh; fail when the needle is absent
(per JavaScript `includes`); fail when the split-based occurrence count
exceeds one; otherwise replace the first occurrence and write back with
the just-fetched revision identifier.  Thrown remote errors are caught and
become unsuccessful results. -/
def applyStrReplace (st : RepoSt) (path oldStr newStr : Str) :
    ToolResult × RepoSt :=
  match getFileContent st path with
  | none => (⟨false, none, some (.fetchFailed path)⟩, st)
  | some file =>
    if jsIncludes file.content oldStr = false then
      (⟨false, none, some (.strNotFound path)⟩, st)
    else
      let occurrences : Int := ((jsSplit file.content oldStr).length : Int) - 1
      if 1 < occurrences then
        (⟨false, none, some (.strAmbiguous occurrences path)⟩, st)
      else
        let newContent := jsReplaceFirst file.content oldStr newStr
        match updateFile st path newContent (some file.sha) with
        | some st2 => (⟨true, none, none⟩, st2)
        | none => (⟨false, none, some (.writeFailed path)⟩, st)

/-- A tool call as dispatched by the tool loop: the (free-form) tool name
and the input fields the four known tools read. -/
structure ToolCall where
  name : Str
  path : Str := []
  oldStr : Str := []
  newStr : Str := []
  contents : Str := []
  query : Str := []
deriving DecidableEq

/-- Externally visible record of a mutation. -/
structure FileChange where
  path : Str
  action : Str
deriving DecidableEq

/-- Dispatch of one tool call, embedded from `executeToolCall` in
`src/app/api/chat/route.ts`: the four known tools map to repository
operations, any other name yields an unsuccessful result naming the
unknown tool, and every thrown repository error is caught and converted to
an unsuccessful result.  The search capability is passed in as a function
(`none` modelling a thrown search error). -/
def executeToolCall (search : Str → Option (List Str)) (call : ToolCall)
    (st : RepoSt) : ToolResult × RepoSt :=
  if call.name = "read_file".data then
    match getFileContent st call.path with
    | some file => (⟨true, some file.content, none⟩, st)
    | none => (⟨false, none, some (.fetchFailed call.path)⟩, st)
  else if call.name = "str_replace".data then
    applyStrReplace st call.path call.oldStr call.newStr
  else if call.name = "create_file".data then
    match updateFile st call.path call.contents none with
    | some st2 => (⟨true, none, none⟩, st2)
    | none => (⟨false, none, some (.writeFailed call.path)⟩, st)
  else if call.name = "search_files".data then
    match search call.query with
    | some paths => (⟨true, some (joinSlash paths), none⟩, st)
    | none => (⟨false, none, some .searchFailed⟩, st)
  else
    (⟨false, none, some (.unknownTool call.name)⟩, st)

/-- Sequential execution of the round-one tool calls, embedded from the
`for (const call of response.toolCalls)` loop of the route: one result per
call in order, and a `FileChange` pushed for every `str_replace` or
`create_file` call. -/
def execCalls (search : Str → Option (List Str)) :
    List ToolCall → RepoSt → List ToolResult × List FileChange × RepoSt
  | [], st => ([], [], st)
  | call :: rest, st =>
    let out := executeToolCall search call st
    let tail := execCalls search rest out.2
    let changes :=
      if call.name = "str_replace".data || call.name = "create_file".data then
        ⟨call.path,
          if call.name = "create_file".data then "create".data
          else "edit".data⟩ :: tail.2.1
      else tail.2.1
    (out.1 :: tail.1, changes, tail.2.2)

/-- Token usage of one model round, with the absent-field-defaults-to-zero
reading the route applies. -/
structure Usage where
  input : Nat
  output : Nat
  cacheRead : Nat
  cacheWrite : Nat
deriving DecidableEq

/-- One model round as received from the conversation capability: narrative
text, tool calls (`none` when the round produced none, as the client
returns), token usage and the round's computed cost. -/
structure ModelResponse where
  content : Str
  toolCalls : Option (List ToolCall)
  usage : Usage
  cost : ℚ
deriving DecidableEq

/-- Result of one turn as returned by the route: narrative text, the file
changes, the summed cost and token usage, and (for observability of the
state machine) the number of model rounds that were issued. -/
structure TurnOut where
  content : Str
  filesChanged : List FileChange
  cost : ℚ
  tokensUsed : Usage
  rounds : Nat
deriving DecidableEq

/-- Rendering of a structured tool error, standing for the error string
carried by the source result. -/
def errText : ErrKind → Str
  | .unknownTool name => "Unknown tool: ".data ++ name
  | .strNotFound path =>
    "String not found in ".data ++ path ++
      ". Make sure the string is unique and exact.".data
  | .strAmbiguous _ path =>
    "String found multiple times in ".data ++ path ++
      ". It must be unique for safe replacement.".data
  | .fetchFailed path => "Path ".data ++ path ++ " is not a file".data
  | .writeFailed path => "Write failed for ".data ++ path
  | .searchFailed => "Search failed".data

/-- Joins a list of lines with newline separators (JavaScript `join` with
a newline separator). -/
def joinLines : List Str → Str
  | [] => []
  | [s] => s
  | s :: rest => s ++ '\n' :: joinLines rest

/-- Synthesized human-readable summary of the tool outcomes sent into the
follow-up round, embedded from the `toolResultsMessage` construction:
one line per call, `Success` or `Failed - ` plus the error. -/
def toolResultsMessage (calls : List ToolCall) (results : List ToolResult) :
    Str :=
  joinLines
    ((calls.zip results).map
      (fun pr =>
        "Tool ".data ++ pr.1.name ++ ": ".data ++
          (if pr.2.success then "Success".data
           else
             "Failed - ".data ++
               (match pr.2.error with
                | some e => errText e
                | none => []))))

/-- Sum of the two rounds' token usage, embedded from the `tokensUsed`
object of the follow-up return. -/
def addUsage (a b : Usage) : Usage :=
  ⟨a.input + b.input, a.output + b.output, a.cacheRead + b.cacheRead,
    a.cacheWrite + b.cacheWrite⟩

/-- The tool-loop portion of the chat route `POST` handler, embedded from
`src/app/api/chat/route.ts`: round one is given as a value, the follow-up
round as a function of the synthesized tool-results message.  With no tool
calls the turn ends after round one with round one's text, cost and usage;
otherwise the calls run sequentially, a follow-up round is issued and the
turn carries the follow-up text, the collected file changes and the summed
cost and usage. -/
def runTurn (search : Str → Option (List Str)) (r1 : ModelResponse)
    (followUp : Str → ModelResponse) (st : RepoSt) : TurnOut × RepoSt :=
  match r1.toolCalls with
  | some calls =>
    let out := execCalls search calls st
    if 0 < out.1.length then
      let f := followUp (toolResultsMessage calls out.1)
      (⟨f.content, out.2.1, r1.cost + f.cost, addUsage r1.usage f.usage, 2⟩,
        out.2.2)
    else
      (⟨r1.content, out.2.1, r1.cost, r1.usage, 1⟩, out.2.2)
  | none => (⟨r1.content, [], r1.cost, r1.usage, 1⟩, st)

/-- Process-lifetime cost ledger, embedded from the `CostTracker` record
(costs modelled as exact rationals). -/
structure CostTracker where
  sessionCost : ℚ
  dailyCost : ℚ
  monthlyCost : ℚ
  tokensInput : Nat
  tokensOutput : Nat
  tokensCacheRead : Nat
  tokensCacheWrite : Nat
deriving DecidableEq

/-- Session reset embedded from `resetSessionCost`: zeroes the session cost
and the four token counters and touches nothing else. -/
def resetSessionCost (t : CostTracker) : CostTracker :=
  { t with
    sessionCost := 0
    tokensInput := 0
    tokensOutput := 0
    tokensCacheRead := 0
    tokensCacheWrite := 0 }

/-- Invariant of the sequential loader: the recorded file paths are
pairwise distinct and every recorded path is in the visited set. -/
def LoadInv (st : LoadState) : Prop :=
  (st.files.map Prod.fst).Nodup ∧
    ∀ p ∈ st.files.map Prod.fst, p ∈ st.loaded

/-- Specification-side reading of the change list of a turn: one change per
`create_file` or `str_replace` call, in call order, independent of the
calls' outcomes. -/
def changesOfCalls : List ToolCall → List FileChange
  | [] => []
  | call :: rest =>
    if call.name = "create_file".data then
      ⟨call.path, "create".data⟩ :: changesOfCalls rest
    else if call.name = "str_replace".data then
      ⟨call.path, "edit".data⟩ :: changesOfCalls rest
    else changesOfCalls rest

/-- Repository for the depth-bound scenario: a seed importing a file that
itself imports a third file. -/
def depthRepo : RepoMap :=
  [("/S".data, "import a from '/T'".data),
   ("/T".data, "import b from '/U'".data),
   ("/U".data, "u".data)]

/-- Repository for the import-cycle scenario. -/
def cycleRepo : RepoMap :=
  [("/A".data, "import x from '/B'".data),
   ("/B".data, "import y from '/A'".data)]

/-- Repository state for the mixed-outcome tool round: one file whose
content contains the edit target twice. -/
def c1State : RepoSt := ⟨[("/f".data, ⟨"abab".data, 7⟩)], 8⟩

/-- Tool calls of the mixed-outcome round: a file creation that succeeds
followed by a unique-string replacement that fails as ambiguous. -/
def c1Calls : List ToolCall :=
  [{ name := "create_file".data, path := "/g".data,
     contents := "hello".data },
   { name := "str_replace".data, path := "/f".data, oldStr := "ab".data,
     newStr := "z".data }]

/-- Round-one response of the mixed-outcome scenario. -/
def c1Round : ModelResponse := ⟨"round one".data, some c1Calls, ⟨5, 2, 0, 0⟩, 1⟩

/-- Follow-up response of the mixed-outcome scenario. -/
def c1Follow : ModelResponse := ⟨"round two".data, none, ⟨3, 1, 0, 0⟩, 2⟩

theorem loadFile_zero_eq (repo : RepoMap) (maxDepth : Nat) (path : Str)
    (depth : Nat) (st : LoadState) :
    loadFile repo maxDepth 0 path depth st = st := rfl

theorem loadFile_succ_eq (repo : RepoMap) (maxDepth fuel : Nat) (path : Str)
    (depth : Nat) (st : LoadState) :
    loadFile repo maxDepth (fuel + 1) path depth st =
      tryCandsGo repo maxDepth (loadFile repo maxDepth fuel)
        (possiblePaths path) depth st := rfl

theorem startsWithL_append (p v : Str) : startsWithL p (p ++ v) = true := by
  induction p with
  | nil => rfl
  | cons a as ih => simp [startsWithL, ih]

theorem startsWithL_drop {p l : Str} (h : startsWithL p l = true) :
    l = p ++ l.drop p.length := by
  induction p generalizing l with
  | nil => simp
  | cons a as ih =>
    cases l with
    | nil => simp [startsWithL] at h
    | cons b bs =>
      simp only [startsWithL, Bool.and_eq_true, decide_eq_true_eq] at h
      obtain ⟨rfl, h2⟩ := h
      simp only [List.length_cons, List.drop_succ_cons, List.cons_append,
        List.cons.injEq, true_and]
      exact ih h2

theorem startsWithL_nil_iff (p : Str) : startsWithL p [] = true ↔ p = [] := by
  cases p with
  | nil => simp [startsWithL]
  | cons a as => simp [startsWithL]

theorem jsIncludes_nil_needle (hay : Str) : jsIncludes hay [] = true := by
  cases hay with
  | nil => rfl
  | cons c t => simp [jsIncludes, startsWithL]

theorem jsIncludes_iff (hay needle : Str) :
    jsIncludes hay needle = true ↔ SubstrOf needle hay := by
  constructor
  · intro h
    induction hay with
    | nil =>
      cases needle with
      | nil => exact ⟨[], [], rfl⟩
      | cons c cs => simp [jsIncludes, startsWithL] at h
    | cons c t ih =>
      simp only [jsIncludes, Bool.or_eq_true] at h
      rcases h with h | h
      · exact ⟨[], (c :: t).drop needle.length, by simpa using startsWithL_drop h⟩
      · obtain ⟨s, u, hsu⟩ := ih h
        exact ⟨c :: s, u, by simp [hsu]⟩
  · rintro ⟨s, u, rfl⟩
    induction s with
    | nil =>
      cases needle with
      | nil => simpa using jsIncludes_nil_needle u
      | cons n ns =>
        simp only [List.nil_append, jsIncludes, Bool.or_eq_true]
        exact Or.inl (by simpa using startsWithL_append (n :: ns) u)
    | cons c s ih =>
      simp only [List.cons_append, jsIncludes, Bool.or_eq_true]
      exact Or.inr (by simpa using ih)

theorem splitFirst_eq {s sep pre post : Str}
    (h : splitFirst s sep = some (pre, post)) : s = pre ++ sep ++ post := by
  induction s generalizing pre with
  | nil =>
    by_cases hs : startsWithL sep ([] : Str) = true
    · rw [startsWithL_nil_iff] at hs
      subst hs
      simp [splitFirst, startsWithL] at h
      obtain ⟨rfl, rfl⟩ := h
      rfl
    · simp [splitFirst, hs] at h
  | cons c t ih =>
    by_cases hs : startsWithL sep (c :: t) = true
    · simp only [splitFirst, hs, if_true, Option.some.injEq, Prod.mk.injEq] at h
      obtain ⟨rfl, rfl⟩ := h
      simpa using startsWithL_drop hs
    · simp only [splitFirst, hs, if_false, Bool.false_eq_true] at h
      cases hsp : splitFirst t sep with
      | none => rw [hsp] at h; simp at h
      | some pr =>
        obtain ⟨pre2, post2⟩ := pr
        rw [hsp] at h
        simp only [Option.some.injEq, Prod.mk.injEq] at h
        obtain ⟨rfl, rfl⟩ := h
        simp [ih hsp]

theorem startsWithL_nil_of_ne {sep : Str} (hsep : sep ≠ []) :
    startsWithL sep [] = false := by
  cases sep with
  | nil => exact absurd rfl hsep
  | cons a as => rfl

theorem countOccGo_fuel {sep : Str} (hsep : sep ≠ []) :
    ∀ n s f g, s.length ≤ n → s.length < f → s.length < g →
      countOccGo sep f s = countOccGo sep g s := by
  intro n
  induction n with
  | zero =>
    intro s f g h hf hg
    have hs : s = [] := List.length_eq_zero.mp (Nat.le_antisymm h (Nat.zero_le _))
    subst hs
    cases f with
    | zero => omega
    | succ f2 =>
      cases g with
      | zero => omega
      | succ g2 => rfl
  | succ n ih =>
    intro s f g h hf hg
    cases s with
    | nil =>
      cases f with
      | zero => omega
      | succ f2 =>
        cases g with
        | zero => omega
        | succ g2 => rfl
    | cons c t =>
      cases f with
      | zero => omega
      | succ f2 =>
        cases g with
        | zero => omega
        | succ g2 =>
          by_cases hs : startsWithL sep (c :: t) = true
          · have h1 : 1 ≤ sep.length := by
              cases sep with
              | nil => exact absurd rfl hsep
              | cons a as => simp
            have hd : ((c :: t).drop sep.length).length ≤ t.length := by
              simp only [List.length_drop, List.length_cons]
              omega
            simp only [countOccGo, hs, if_true]
            have := ih ((c :: t).drop sep.length) f2 g2
              (by simp only [List.length_cons] at h; omega)
              (by simp only [List.length_cons] at hf; omega)
              (by simp only [List.length_cons] at hg; omega)
            omega
          · simp only [countOccGo, hs, if_false, Bool.false_eq_true]
            exact ih t f2 g2 (by simp only [List.length_cons] at h; omega)
              (by simp only [List.length_cons] at hf; omega)
              (by simp only [List.length_cons] at hg; omega)

theorem countOccGo_none {sep : Str} (hsep : sep ≠ []) :
    ∀ s f, s.length < f → splitFirst s sep = none → countOccGo sep f s = 0 := by
  intro s
  induction s with
  | nil =>
    intro f hf hn
    cases f with
    | zero => omega
    | succ f2 => simp [countOccGo, startsWithL_nil_of_ne hsep]
  | cons c t ih =>
    intro f hf hn
    cases f with
    | zero => omega
    | succ f2 =>
      by_cases hs : startsWithL sep (c :: t) = true
      · simp [splitFirst, hs] at hn
      · have ht : splitFirst t sep = none := by
          simp only [splitFirst, hs, if_false, Bool.false_eq_true] at hn
          cases hsp : splitFirst t sep with
          | none => rfl
          | some pr => obtain ⟨a, b⟩ := pr; rw [hsp] at hn; simp at hn
        simp only [countOccGo, hs, if_false, Bool.false_eq_true]
        exact ih f2 (by simp only [List.length_cons] at hf; omega) ht

theorem countOccGo_some {sep : Str} (hsep : sep ≠ []) :
    ∀ s pre post f g, splitFirst s sep = some (pre, post) →
      s.length < f → post.length < g →
      countOccGo sep f s = 1 + countOccGo sep g post := by
  intro s
  induction s with
  | nil =>
    intro pre post f g h hf hg
    simp [splitFirst, startsWithL_nil_of_ne hsep] at h
  | cons c t ih =>
    intro pre post f g h hf hg
    cases f with
    | zero => omega
    | succ f2 =>
      by_cases hs : startsWithL sep (c :: t) = true
      · simp only [splitFirst, hs, if_true, Option.some.injEq,
          Prod.mk.injEq] at h
        obtain ⟨rfl, rfl⟩ := h
        have h1 : 1 ≤ sep.length := by
          cases sep with
          | nil => exact absurd rfl hsep
          | cons a as => simp
        have hd : ((c :: t).drop sep.length).length ≤ t.length := by
          simp only [List.length_drop, List.length_cons]
          omega
        simp only [countOccGo, hs, if_true]
        have := countOccGo_fuel hsep (((c :: t).drop sep.length).length)
          ((c :: t).drop sep.length) f2 g le_rfl
          (by simp only [List.length_cons] at hf; omega) hg
        omega
      · simp only [splitFirst, hs, if_false, Bool.false_eq_true] at h
        cases hsp : splitFirst t sep with
        | none => rw [hsp] at h; simp at h
        | some pr =>
          obtain ⟨pre2, post2⟩ := pr
          rw [hsp] at h
          simp only [Option.some.injEq, Prod.mk.injEq] at h
          obtain ⟨rfl, rfl⟩ := h
          simp only [countOccGo, hs, if_false, Bool.false_eq_true]
          exact ih pre2 _ f2 g hsp
            (by simp only [List.length_cons] at hf; omega) hg

theorem jsSplitGo_length {sep : Str} (hsep : sep ≠ []) :
    ∀ n s f g, s.length ≤ n → s.length < f → s.length < g →
      (jsSplitGo sep f s).length = countOccGo sep g s + 1 := by
  intro n
  induction n with
  | zero =>
    intro s f g h hf hg
    have hs : s = [] := List.length_eq_zero.mp (Nat.le_antisymm h (Nat.zero_le _))
    subst hs
    cases f with
    | zero => omega
    | succ f2 =>
      cases g with
      | zero => omega
      | succ g2 =>
        have h0 : splitFirst ([] : Str) sep = none := by
          simp [splitFirst, startsWithL_nil_of_ne hsep]
        simp [jsSplitGo, h0, countOccGo, startsWithL_nil_of_ne hsep]
  | succ n ih =>
    intro s f g h hf hg
    cases f with
    | zero => omega
    | succ f2 =>
      cases hsp : splitFirst s sep with
      | none =>
        have hc := countOccGo_none hsep s g hg hsp
        simp [jsSplitGo, hsp, hc]
      | some pr =>
        obtain ⟨pre, post⟩ := pr
        have hdecomp := splitFirst_eq hsp
        have h1 : 1 ≤ sep.length := by
          cases sep with
          | nil => exact absurd rfl hsep
          | cons a as => simp
        have hlen : post.length + 1 ≤ s.length := by
          have := congrArg List.length hdecomp
          simp only [List.length_append] at this
          omega
        have hcount := countOccGo_some hsep s pre post g (post.length + 1)
          hsp hg (by omega)
        simp only [jsSplitGo, hsp, List.length_cons]
        rw [ih post f2 (post.length + 1) (by omega) (by omega) (by omega)]
        omega

theorem jsSplit_length_count (c old : Str) (hold : old ≠ []) :
    (jsSplit c old).length = countOcc c old + 1 := by
  simp only [jsSplit, countOcc, if_neg hold]
  exact jsSplitGo_length hold c.length c (c.length + 1) (c.length + 1)
    le_rfl (by omega) (by omega)

theorem splitFirst_of_incl {s sep : Str} (hsep : sep ≠ [])
    (h : jsIncludes s sep = true) :
    ∃ pre post, splitFirst s sep = some (pre, post) := by
  induction s with
  | nil =>
    cases sep with
    | nil => exact absurd rfl hsep
    | cons a as => simp [jsIncludes, startsWithL] at h
  | cons c t ih =>
    by_cases hs : startsWithL sep (c :: t) = true
    · exact ⟨[], (c :: t).drop sep.length, by simp [splitFirst, hs]⟩
    · simp only [jsIncludes, Bool.or_eq_true] at h
      rcases h with h | h
      · exact absurd h hs
      · obtain ⟨pre, post, hsp⟩ := ih h
        exact ⟨c :: pre, post, by simp [splitFirst, hs, hsp]⟩

/-- Claim C3: for every file content, old text and new text, the safe edit
applier fails with the not-found error when the old text does not occur in
the content, fails with the ambiguity error carrying the non-overlapping
occurrence count when the old text occurs more than once, and otherwise
performs exactly one substring substitution and writes the result back
using the just-fetched revision identifier (the new entry carries a fresh
revision, which the write only produces when the expected revision it was
given matches the stored one). -/
theorem applyStrReplace_spec (st : RepoSt) (path oldStr newStr c : Str)
    (sha : Nat) (hfile : getFileContent st path = some ⟨c, sha⟩)
    (hold : oldStr ≠ []) :
    (¬ SubstrOf oldStr c →
      applyStrReplace st path oldStr newStr =
        (⟨false, none, some (.strNotFound path)⟩, st)) ∧
    (SubstrOf oldStr c → 1 < countOcc c oldStr →
      applyStrReplace st path oldStr newStr =
        (⟨false, none, some (.strAmbiguous (countOcc c oldStr) path)⟩, st)) ∧
    (SubstrOf oldStr c → countOcc c oldStr ≤ 1 →
      ∃ pre post,
        c = pre ++ oldStr ++ post ∧
        applyStrReplace st path oldStr newStr =
          (⟨true, none, none⟩,
            ⟨setEntry st.entries path ⟨pre ++ newStr ++ post, st.nextSha⟩,
              st.nextSha + 1⟩)) := by
  have hocc : ((jsSplit c oldStr).length : Int) - 1 = (countOcc c oldStr : Int) := by
    rw [jsSplit_length_count c oldStr hold]
    push_cast
    ring
  refine ⟨?_, ?_, ?_⟩
  · intro hn
    have hinc : jsIncludes c oldStr = false := by
      rw [← jsIncludes_iff] at hn
      simpa using hn
    simp [applyStrReplace, hfile, hinc]
  · intro hi hcount
    have hinc : jsIncludes c oldStr = true := (jsIncludes_iff c oldStr).mpr hi
    have hgt : (1 : Int) < ((jsSplit c oldStr).length : Int) - 1 := by
      rw [hocc]
      exact_mod_cast hcount
    simp only [applyStrReplace, hfile, hinc, Bool.true_eq_false, if_false,
      if_pos hgt]
    rw [hocc]
  · intro hi hle
    have hinc : jsIncludes c oldStr = true := (jsIncludes_iff c oldStr).mpr hi
    obtain ⟨pre, post, hsp⟩ := splitFirst_of_incl hold hinc
    refine ⟨pre, post, splitFirst_eq hsp, ?_⟩
    have hnotgt : ¬ (1 : Int) < ((jsSplit c oldStr).length : Int) - 1 := by
      rw [hocc]
      omega
    have hrep : jsReplaceFirst c oldStr newStr = pre ++ newStr ++ post := by
      simp [jsReplaceFirst, hsp]
    simp [applyStrReplace, hfile, hinc, hnotgt, hrep, updateFile]

/-- Witness for claim C3 at a concrete repository, discharging the
not-found branch. -/
theorem applyStrReplace_spec_witness :
    applyStrReplace ⟨[("/w".data, ⟨"hello".data, 3⟩)], 4⟩ "/w".data
        "zz".data "q".data =
      (⟨false, none, some (.strNotFound "/w".data)⟩,
        ⟨[("/w".data, ⟨"hello".data, 3⟩)], 4⟩) :=
  (applyStrReplace_spec ⟨[("/w".data, ⟨"hello".data, 3⟩)], 4⟩ "/w".data
    "zz".data "q".data "hello".data 3 (by decide) (by decide)).1 (by decide)

/-- Claim C10: with an empty old text the applier never reports the
not-found error; on content of length at most two it succeeds and writes
the new text prepended to the original content; on content of length at
least three it fails as ambiguous, reporting the content length minus
one. -/
theorem applyStrReplace_empty_oldStr (st : RepoSt) (path newStr c : Str)
    (sha : Nat) (hfile : getFileContent st path = some ⟨c, sha⟩) :
    (applyStrReplace st path [] newStr).1.error ≠ some (.strNotFound path) ∧
    (c.length ≤ 2 →
      applyStrReplace st path [] newStr =
        (⟨true, none, none⟩,
          ⟨setEntry st.entries path ⟨newStr ++ c, st.nextSha⟩,
            st.nextSha + 1⟩)) ∧
    (3 ≤ c.length →
      applyStrReplace st path [] newStr =
        (⟨false, none, some (.strAmbiguous ((c.length : Int) - 1) path)⟩,
          st)) := by
  have hinc : jsIncludes c [] = true := jsIncludes_nil_needle c
  have hlen : (jsSplit c []).length = c.length := by
    simp [jsSplit]
  have hsp : splitFirst c [] = some ([], c) := by
    cases c with
    | nil => rfl
    | cons a t => simp [splitFirst, startsWithL]
  have hrep : jsReplaceFirst c [] newStr = newStr ++ c := by
    simp [jsReplaceFirst, hsp]
  have hsucc : c.length ≤ 2 →
      applyStrReplace st path [] newStr =
        (⟨true, none, none⟩,
          ⟨setEntry st.entries path ⟨newStr ++ c, st.nextSha⟩,
            st.nextSha + 1⟩) := by
    intro h2
    have hnot : ¬ (1 : Int) < ((jsSplit c []).length : Int) - 1 := by
      rw [hlen]
      omega
    simp [applyStrReplace, hfile, hinc, hnot, hrep, updateFile]
  have hamb : 3 ≤ c.length →
      applyStrReplace st path [] newStr =
        (⟨false, none, some (.strAmbiguous ((c.length : Int) - 1) path)⟩,
          st) := by
    intro h3
    have hgt : (1 : Int) < ((jsSplit c []).length : Int) - 1 := by
      rw [hlen]
      omega
    simp only [applyStrReplace, hfile, hinc, Bool.true_eq_false, if_false,
      if_pos hgt]
    rw [hlen]
  refine ⟨?_, hsucc, hamb⟩
  by_cases h2 : c.length ≤ 2
  · rw [hsucc h2]
    simp
  · rw [hamb (by omega)]
    simp

/-- Witness for claim C10 at a concrete three-character file. -/
theorem applyStrReplace_empty_oldStr_witness :
    applyStrReplace ⟨[("/w".data, ⟨"abc".data, 3⟩)], 4⟩ "/w".data []
        "q".data =
      (⟨false, none, some (.strAmbiguous 2 "/w".data)⟩,
        ⟨[("/w".data, ⟨"abc".data, 3⟩)], 4⟩) :=
  ((applyStrReplace_empty_oldStr ⟨[("/w".data, ⟨"abc".data, 3⟩)], 4⟩
      "/w".data "q".data "abc".data 3 (by decide)).2.2 (by decide)).trans
    (by decide)

/-- Claim C2 (divergence witness): the resolver maps the relative
reference of the spec example to the expected repository path, but the
extractor's trailing filter is applied to the already-resolved path, which
no longer carries its relative marker, so the extractor discards the
reference and returns the empty list instead of that path. -/
theorem parseImports_drops_relative_reference :
    resolveImportPath "../d".data "a/b/c.ts".data = "a/d".data ∧
    parseImports "import x from '../d'".data "a/b/c.ts".data = [] := by
  refine ⟨by decide, by decide⟩

/-- Claim C9: resetting the session zeroes exactly the session-scoped cost
and the four token counters, and the daily and monthly cost totals after
the reset equal their values before it. -/
theorem resetSessionCost_frame (t : CostTracker) :
    (resetSessionCost t).sessionCost = 0 ∧
    (resetSessionCost t).tokensInput = 0 ∧
    (resetSessionCost t).tokensOutput = 0 ∧
    (resetSessionCost t).tokensCacheRead = 0 ∧
    (resetSessionCost t).tokensCacheWrite = 0 ∧
    (resetSessionCost t).dailyCost = t.dailyCost ∧
    (resetSessionCost t).monthlyCost = t.monthlyCost :=
  ⟨rfl, rfl, rfl, rfl, rfl, rfl, rfl⟩

/-- Claim C6: when round one returns zero tool calls the turn result is
exactly the round-one narrative text, the change list is empty, the
reported usage and cost equal round one's exactly, no repository mutation
happens, and only one model round is issued. -/
theorem runTurn_no_toolCalls (search : Str → Option (List Str))
    (r1 : ModelResponse) (followUp : Str → ModelResponse) (st : RepoSt)
    (h : r1.toolCalls = none ∨ r1.toolCalls = some []) :
    runTurn search r1 followUp st =
      (⟨r1.content, [], r1.cost, r1.usage, 1⟩, st) := by
  rcases h with h | h
  · simp [runTurn, h]
  · simp [runTurn, h, execCalls]

/-- Witness for claim C6 on a concrete round with no tool calls. -/
theorem runTurn_no_toolCalls_witness :
    runTurn (fun _ => none) ⟨"hi".data, none, ⟨1, 2, 3, 4⟩, 5⟩
        (fun _ => c1Follow) ⟨[], 0⟩ =
      (⟨"hi".data, [], 5, ⟨1, 2, 3, 4⟩, 1⟩, ⟨[], 0⟩) :=
  runTurn_no_toolCalls (fun _ => none) ⟨"hi".data, none, ⟨1, 2, 3, 4⟩, 5⟩
    (fun _ => c1Follow) ⟨[], 0⟩ (Or.inl rfl)

/-- Claim C1 (counterexample): in a round with one succeeding
`create_file` and one `str_replace` failing as ambiguous, the change list
contains two entries — the failed edit is recorded too, because the loop
pushes a change for every create or edit call without consulting its
result. -/
theorem failed_edit_still_recorded :
    (execCalls (fun _ => none) c1Calls c1State).1 =
      [⟨true, none, none⟩,
       ⟨false, none, some (.strAmbiguous 2 "/f".data)⟩] ∧
    (runTurn (fun _ => none) c1Round (fun _ => c1Follow)
        c1State).1.filesChanged =
      [⟨"/g".data, "create".data⟩, ⟨"/f".data, "edit".data⟩] := by
  refine ⟨by decide, by decide⟩

/-- Claim C1 (amended): a FileChange is recorded for every `create_file`
or `str_replace` tool call of the round, in call order and regardless of
whether the call succeeded; calls with other names record nothing. -/
theorem changes_for_every_edit_call (search : Str → Option (List Str))
    (r1 : ModelResponse) (followUp : Str → ModelResponse) (st : RepoSt)
    (calls : List ToolCall) (h : r1.toolCalls = some calls) :
    (runTurn search r1 followUp st).1.filesChanged = changesOfCalls calls := by
  have hex : ∀ (cs : List ToolCall) (st2 : RepoSt),
      (execCalls search cs st2).2.1 = changesOfCalls cs := by
    intro cs
    induction cs with
    | nil => intro st2; rfl
    | cons call rest ih =>
      intro st2
      by_cases hc : call.name = "create_file".data
      · simp [execCalls, changesOfCalls, hc, ih]
      · by_cases hs : call.name = "str_replace".data
        · simp [execCalls, changesOfCalls, hs, hc, ih]
        · simp [execCalls, changesOfCalls, hs, hc, ih]
  simp only [runTurn, h]
  split
  · simp [hex]
  · simp [hex]

/-- Witness for the amended claim C1 on the concrete mixed-outcome
round. -/
theorem changes_for_every_edit_call_witness :
    (runTurn (fun _ => none) c1Round (fun _ => c1Follow)
        c1State).1.filesChanged = changesOfCalls c1Calls :=
  changes_for_every_edit_call (fun _ => none) c1Round (fun _ => c1Follow)
    c1State c1Calls rfl

/-- Claim C5: every seed is loaded at depth 0 (the loader is definitionally
the fold of depth-0 loads over the seed list, and a file loaded below the
bound expands each extracted reference at the next depth by construction);
a load performed at depth `maxDepth` ignores the file's references
entirely, adding at most that single file; and in the concrete scenario
with `maxDepth = 1` the seed's direct import is loaded while that import's
own import is not. -/
theorem depth_bound_spec :
    (∀ (repo : RepoMap) (entryPaths : List Str) (maxDepth : Nat),
       getFilesWithImports repo entryPaths maxDepth =
         (entryPaths.foldl
           (fun st p => loadFile repo maxDepth (maxDepth + 1) p 0 st)
           ⟨[], []⟩).files) ∧
    (∀ (repo : RepoMap) (maxDepth fuel : Nat) (path : Str) (st : LoadState),
       (loadFile repo maxDepth fuel path maxDepth st).files.length ≤
         st.files.length + 1) ∧
    getFilesWithImports depthRepo ["/S".data] 1 =
      [("/S".data, "import a from '/T'".data),
       ("/T".data, "import b from '/U'".data)] := by
  have htc : ∀ (repo : RepoMap) (maxDepth : Nat)
      (recf : Str → Nat → LoadState → LoadState) (cands : List Str)
      (st : LoadState),
      (tryCandsGo repo maxDepth recf cands maxDepth st).files.length ≤
        st.files.length + 1 := by
    intro repo maxDepth recf cands
    induction cands with
    | nil => intro st; simp [tryCandsGo]
    | cons p rest ih =>
      intro st
      by_cases hp : p ∈ st.loaded
      · simp [tryCandsGo, hp]
      · cases hf : repoFind repo p with
        | none => simpa [tryCandsGo, hp, hf] using ih st
        | some content => simp [tryCandsGo, hp, hf]
  refine ⟨fun repo entryPaths maxDepth => rfl, ?_, by decide⟩
  intro repo maxDepth fuel path st
  cases fuel with
  | zero => simp [loadFile_zero_eq]
  | succ f =>
    simpa [loadFile_succ_eq] using
      htc repo maxDepth (loadFile repo maxDepth f) (possiblePaths path) st

theorem loadListGo_inv (recf : Str → Nat → LoadState → LoadState)
    (hrec : ∀ p d st, LoadInv st → LoadInv (recf p d st)) :
    ∀ (lst : List Str) (d : Nat) (st : LoadState),
      LoadInv st → LoadInv (loadListGo recf lst d st) := by
  intro lst
  induction lst with
  | nil => intro d st h; exact h
  | cons imp rest ih =>
    intro d st h
    exact ih d (recf imp d st) (hrec imp d st h)

theorem tryCandsGo_inv (repo : RepoMap) (maxDepth : Nat)
    (recf : Str → Nat → LoadState → LoadState)
    (hrec : ∀ p d st, LoadInv st → LoadInv (recf p d st)) :
    ∀ (cands : List Str) (d : Nat) (st : LoadState),
      LoadInv st → LoadInv (tryCandsGo repo maxDepth recf cands d st) := by
  intro cands
  induction cands with
  | nil => intro d st h; exact h
  | cons p rest ih =>
    intro d st h
    by_cases hp : p ∈ st.loaded
    · simpa [tryCandsGo, hp] using h
    · cases hf : repoFind repo p with
      | none => simpa [tryCandsGo, hp, hf] using ih d st h
      | some content =>
        have hst1 : LoadInv ⟨p :: st.loaded, st.files ++ [(p, content)]⟩ := by
          obtain ⟨hnd, hsub⟩ := h
          constructor
          · simp only [List.map_append, List.map_cons, List.map_nil]
            rw [List.nodup_append]
            refine ⟨hnd, List.nodup_singleton p, ?_⟩
            intro q hq hq2
            simp only [List.mem_singleton] at hq2
            subst hq2
            exact hp (hsub _ hq)
          · intro q hq
            simp only [List.map_append, List.map_cons, List.map_nil,
              List.mem_append, List.mem_singleton] at hq
            rcases hq with hq | hq
            · exact List.mem_cons_of_mem p (hsub q hq)
            · subst hq
              exact List.mem_cons_self q _
        by_cases hd : d < maxDepth
        · have hl := loadListGo_inv recf hrec (parseImports content p)
            (d + 1) _ hst1
          simpa [tryCandsGo, hp, hf, hd] using hl
        · simpa [tryCandsGo, hp, hf, hd] using hst1

theorem loadFile_inv (repo : RepoMap) (maxDepth : Nat) :
    ∀ (fuel : Nat) (path : Str) (d : Nat) (st : LoadState),
      LoadInv st → LoadInv (loadFile repo maxDepth fuel path d st) := by
  intro fuel
  induction fuel with
  | zero => intro path d st h; simpa [loadFile_zero_eq] using h
  | succ f ih =>
    intro path d st h
    have hgo := tryCandsGo_inv repo maxDepth (loadFile repo maxDepth f)
      (fun p d st h => ih p d st h) (possiblePaths path) d st h
    simpa [loadFile_succ_eq] using hgo

/-- Claim C4 (amended): under sequential completion of fetches (each
awaited fetch finishing before any other activation runs — the semantics
of `getFilesWithImports` here), every resolved path is fetched at most
once however many reference edges or seeds reach it, the returned file
list never holds two records with the same path, and in the two-file
cycle of imports with depth bound three each file is recorded exactly once.
Under interleaved completion of concurrent fetches this dedup guarantee
does not survive (see the accompanying schedule). -/
theorem loader_dedup_sequential :
    (∀ (repo : RepoMap) (entryPaths : List Str) (maxDepth : Nat),
       ((getFilesWithImports repo entryPaths maxDepth).map Prod.fst).Nodup) ∧
    ((getFilesWithImports cycleRepo ["/A".data] 3).map Prod.fst).count
        "/A".data = 1 ∧
    ((getFilesWithImports cycleRepo ["/A".data] 3).map Prod.fst).count
        "/B".data = 1 := by
  refine ⟨?_, by decide, by decide⟩
  intro repo entryPaths maxDepth
  have hfold : ∀ (ps : List Str) (st : LoadState), LoadInv st →
      LoadInv (ps.foldl
        (fun st p => loadFile repo maxDepth (maxDepth + 1) p 0 st) st) := by
    intro ps
    induction ps with
    | nil => intro st h; exact h
    | cons p rest ih =>
      intro st h
      exact ih _ (loadFile_inv repo maxDepth (maxDepth + 1) p 0 st h)
  have h0 : LoadInv ⟨[], []⟩ := ⟨List.nodup_nil, by intro p hp; simp at hp⟩
  exact (hfold entryPaths ⟨[], []⟩ h0).1

/-- Claim C4 (counterexample): under the event-loop interleaving of the
source's concurrent expansion there is a schedule on which two activations
both pass the visited check for the same path before either fetch
completes, so that path is fetched and recorded twice and the final file
list holds a duplicate record — refuting the claim that a path reachable
from multiple seeds is fetched at most once. -/
theorem loader_race_double_fetch :
    (loaderRun raceRepo 1 [0, 1, 0, 0, 0, 1, 0, 0]
        (loaderInit ["/A".data, "/B".data])).tasks = [] ∧
    (loaderRun raceRepo 1 [0, 1, 0, 0, 0, 1, 0, 0]
        (loaderInit ["/A".data, "/B".data])).files.map Prod.fst =
      ["/A".data, "/B".data, "/C".data, "/C".data] ∧
    ¬ ((loaderRun raceRepo 1 [0, 1, 0, 0, 0, 1, 0, 0]
        (loaderInit ["/A".data, "/B".data])).files.map Prod.fst).Nodup := by
  refine ⟨by decide, by decide, by decide⟩

theorem applyStrReplace_success_or_error (st : RepoSt) (path o n : Str) :
    (applyStrReplace st path o n).1.success = true ∨
      (applyStrReplace st path o n).1.error.isSome = true := by
  cases hg : getFileContent st path with
  | none => simp [applyStrReplace, hg]
  | some f =>
    by_cases hinc : jsIncludes f.content o = false
    · simp [applyStrReplace, hg, hinc]
    · by_cases hgt : (1 : Int) < ((jsSplit f.content o).length : Int) - 1
      · simp [applyStrReplace, hg, hinc, hgt]
      · cases hu : updateFile st path (jsReplaceFirst f.content o n)
            (some f.sha) with
        | some st2 => simp [applyStrReplace, hg, hinc, hgt, hu]
        | none => simp [applyStrReplace, hg, hinc, hgt, hu]

/-- Claim C7: tool execution is total and order-preserving — the loop
yields exactly one result per call, positionally correlated (the head
result comes from the head call and the tail results from the remaining
calls run in the state the head call left); a call whose name is none of
the four known tools yields an unsuccessful result naming the unknown
tool and leaves the repository untouched; a thrown repository error (here
a read of an absent path) is caught and converted to an unsuccessful
result; and every unsuccessful result carries an error instead of
aborting the turn. -/
theorem executeToolCall_total_spec :
    (∀ (search : Str → Option (List Str)) (calls : List ToolCall)
        (st : RepoSt),
       (execCalls search calls st).1.length = calls.length) ∧
    (∀ (search : Str → Option (List Str)) (call : ToolCall)
        (rest : List ToolCall) (st : RepoSt),
       (execCalls search (call :: rest) st).1 =
         (executeToolCall search call st).1 ::
           (execCalls search rest (executeToolCall search call st).2).1) ∧
    (∀ (search : Str → Option (List Str)) (call : ToolCall) (st : RepoSt),
       call.name ≠ "read_file".data → call.name ≠ "str_replace".data →
       call.name ≠ "create_file".data → call.name ≠ "search_files".data →
       executeToolCall search call st =
         (⟨false, none, some (.unknownTool call.name)⟩, st)) ∧
    (∀ (search : Str → Option (List Str)) (call : ToolCall) (st : RepoSt),
       call.name = "read_file".data → getFileContent st call.path = none →
       executeToolCall search call st =
         (⟨false, none, some (.fetchFailed call.path)⟩, st)) ∧
    (∀ (search : Str → Option (List Str)) (call : ToolCall) (st : RepoSt),
       (executeToolCall search call st).1.success = true ∨
         (executeToolCall search call st).1.error.isSome = true) := by
  refine ⟨?_, fun _ _ _ _ => rfl, ?_, ?_, ?_⟩
  · intro search calls
    induction calls with
    | nil => intro st; rfl
    | cons call rest ih =>
      intro st
      simp [execCalls, ih]
  · intro search call st h1 h2 h3 h4
    simp [executeToolCall, h1, h2, h3, h4]
  · intro search call st hname hget
    simp [executeToolCall, hname, hget]
  · intro search call st
    by_cases h1 : call.name = "read_file".data
    · simp only [executeToolCall, h1, if_true]
      cases hg : getFileContent st call.path with
      | some f => simp
      | none => simp
    · by_cases h2 : call.name = "str_replace".data
      · simp only [executeToolCall, h1, h2, if_true, if_false]
        exact applyStrReplace_success_or_error st call.path call.oldStr
          call.newStr
      · by_cases h3 : call.name = "create_file".data
        · simp only [executeToolCall, h1, h2, h3, if_true, if_false]
          cases hu : updateFile st call.path call.contents none with
          | some st2 => simp [hu]
          | none => simp [hu]
        · by_cases h4 : call.name = "search_files".data
          · simp only [executeToolCall, h1, h2, h3, h4, if_true, if_false]
            cases hs : search call.query with
            | some paths => simp [hs]
            | none => simp [hs]
          · simp [executeToolCall, h1, h2, h3, h4]

/-- Witness for claim C7: a concrete unknown tool name produces the
descriptive unsuccessful result and leaves the repository state
unchanged. -/
theorem executeToolCall_total_spec_witness :
    executeToolCall (fun _ => none) { name := "delete_file".data } ⟨[], 0⟩ =
      (⟨false, none, some (.unknownTool "delete_file".data)⟩, ⟨[], 0⟩) :=
  executeToolCall_total_spec.2.2.1 (fun _ => none)
    { name := "delete_file".data } ⟨[], 0⟩ (by decide) (by decide)
    (by decide) (by decide)
